import Mathlib

set_option maxRecDepth 4000

/- Shallow embedding of the adaptive Hebrew-OCR processing pipeline of this
repository (src/utils/ocrUtils.js, src/utils/columnOcrUtils.js, src/App.jsx).
Pure functions are translated directly; the stateful schedulers are modelled
as explicit state-passing simulations of the JavaScript event loop. -/

/-! ## Strategy selection (selectProcessingStrategy, src/utils/ocrUtils.js) -/

/-- Embedding of `selectProcessingStrategy(processingStrategy, pageCount,
fileSizeMB)`.  The `fileSizeMB` argument is accepted but never read, exactly as
in the source. -/
def selectProcessingStrategy (processingStrategy : String) (pageCount : Nat)
    (_fileSizeMB : ℚ) : String :=
  if processingStrategy ≠ "auto" then processingStrategy
  else if pageCount ≤ 5 then "parallel"
  else if pageCount ≤ 15 then "batch"
  else if pageCount ≤ 50 then "chunked"
  else "progressive"

/-! ## Column-detection gap scan and confidence
    (detectColumns, src/utils/columnOcrUtils.js) -/

/-- Confidence formula of `detectColumns`:
`Math.min(bestGapWidth / minGapWidth, 5) / 5`. -/
def columnConfidence (gapWidth minGapWidth : Nat) : ℚ :=
  min ((gapWidth : ℚ) / (minGapWidth : ℚ)) 5 / 5

/-- Running state of the gap-scan loop in `detectColumns`.  The source uses
`-1` as the sentinel for "no current/best gap"; we use `Option Nat`. -/
structure GapState where
  bestStart : Option Nat
  bestWidth : Nat
  currentStart : Option Nat
  currentWidth : Nat
deriving DecidableEq

/-- One iteration of the scan loop body of `detectColumns` at pixel column
`x`; `isGap x` is `verticalProjection[x] < maxDarkPixelsThreshold`. -/
def gapStep (minGapWidth : Nat) (isGap : Nat → Bool) (s : GapState) (x : Nat) :
    GapState :=
  if isGap x then
    match s.currentStart with
    | none => { s with currentStart := some x, currentWidth := 1 }
    | some _ => { s with currentWidth := s.currentWidth + 1 }
  else
    match s.currentStart with
    | some cs =>
      if s.currentWidth > s.bestWidth ∧ s.currentWidth ≥ minGapWidth then
        ⟨some cs, s.currentWidth, none, 0⟩
      else
        { s with currentStart := none, currentWidth := 0 }
    | none => { s with currentStart := none, currentWidth := 0 }

/-- The trailing check of `detectColumns` for a gap that extends to
`searchEndX`. -/
def gapFinal (minGapWidth : Nat) (s : GapState) : Option (Nat × Nat) :=
  match s.currentStart with
  | some cs =>
    if s.currentWidth > s.bestWidth ∧ s.currentWidth ≥ minGapWidth then
      some (cs, s.currentWidth)
    else
      match s.bestStart with
      | some bs => some (bs, s.bestWidth)
      | none => none
  | none =>
    match s.bestStart with
    | some bs => some (bs, s.bestWidth)
    | none => none

/-- Result object of `detectColumns`.  When a gap is found the source returns
`hasColumns: true` with `rightColumn = {x: 0, width: separatorX}`,
`leftColumn = {x: separatorX, width: canvas.width - separatorX}`, the
confidence, and the gap info; otherwise `hasColumns: false, confidence: 0`. -/
inductive DetectResult where
  | columns (rightX rightW leftX leftW : Nat) (confidence : ℚ)
      (gapStart gapWidth separator : Nat)
  | noColumns
deriving DecidableEq

/-- Embedding of the scan phase of `detectColumns`: the loop over
`x ∈ [searchStartX, searchEndX)` followed by the final-gap check and the
construction of the result object.  `proj x` is `verticalProjection[x]` (the
dark-pixel count of pixel column `x`) and `maxDark` is
`maxDarkPixelsThreshold`; both search bounds and `minGapWidth` are taken as
arguments, as `detectColumns` computes them from the canvas size and the
sensitivity preset before this loop runs. -/
def detectColumnsScan (width : Nat) (proj : Nat → Nat)
    (searchStartX searchEndX minGapWidth : Nat) (maxDark : ℚ) : DetectResult :=
  let isGap := fun x => decide ((proj x : ℚ) < maxDark)
  let s0 : GapState := ⟨none, 0, none, 0⟩
  let xs := List.range' searchStartX (searchEndX - searchStartX)
  let s := xs.foldl (gapStep minGapWidth isGap) s0
  match gapFinal minGapWidth s with
  | some (bestGapStart, bestGapWidth) =>
    let separatorX := bestGapStart + bestGapWidth / 2
    .columns 0 separatorX separatorX (width - separatorX)
      (columnConfidence bestGapWidth minGapWidth)
      bestGapStart bestGapWidth separatorX
  | none => .noColumns

/-! ## Result map and aggregation (finalizeResults, src/App.jsx) -/

/-- Per-page result record `{pageNum, text, confidence}` produced by
`processSinglePage` / `processHebrewSeferPage`. -/
structure PageResult where
  pageNum : Nat
  text : String
  confidence : ℚ
deriving DecidableEq

/-- The shared result store is a JavaScript `Map` keyed by page number; we
model it as an association list in insertion order. -/
abbrev ResultMap := List (Nat × PageResult)

/-- JavaScript `Map.prototype.set`: replace in place if the key is present,
otherwise append. -/
def mapSet (m : ResultMap) (k : Nat) (v : PageResult) : ResultMap :=
  match m with
  | [] => [(k, v)]
  | (k0, v0) :: rest =>
    if k0 = k then (k0, v) :: rest else (k0, v0) :: mapSet rest k v

/-- JavaScript `Map.prototype.get` (returns `undefined`, here `none`, when
absent). -/
def mapGet (m : ResultMap) (k : Nat) : Option PageResult :=
  match m with
  | [] => none
  | (k0, v0) :: rest => if k0 = k then some v0 else mapGet rest k

/-- Building a result map by inserting pairs in sequence with `Map.set`, the
way the schedulers populate `results`. -/
def buildMap (l : List (Nat × PageResult)) : ResultMap :=
  l.foldl (fun m kv => mapSet m kv.1 kv.2) []

/-- Embedding of `finalizeResults` (src/App.jsx): sort the keys numerically
ascending (`.sort((a, b) => a - b)`, modelled by an insertion sort under ≤,
which agrees with it on every key list), then emit either the bare text (image
job with a single entry) or the page banner, and join with a newline. -/
def finalizeResults (fileType : String) (results : ResultMap) : String :=
  let sortedPages := List.insertionSort (· ≤ ·) (results.map Prod.fst)
  String.intercalate "\n" (sortedPages.map (fun pageNum =>
    let result := (mapGet results pageNum).getD ⟨0, "", 0⟩
    if fileType = "image" ∧ results.length = 1 then result.text
    else "--- Page " ++ toString pageNum ++ " ---\n" ++ result.text ++ "\n"))

/-- Modelled from the spec's words for comparison with `finalizeResults` (the
claim's description of aggregation): for a single-image job with exactly one
entry, that entry's text unmodified; otherwise the page banners for the keys
enumerated in ascending numeric order (obtained here by filtering an
enumeration of 0..maxKey, a mechanism independent of the source's sort),
joined by blank lines. -/
def specFinalizeResults (fileType : String) (results : ResultMap) : String :=
  if fileType = "image" ∧ results.length = 1 then
    ((results.head?).map (fun p => p.2.text)).getD ""
  else
    let keys := results.map Prod.fst
    let asc := (List.range (keys.foldr max 0 + 1)).filter (fun k => k ∈ keys)
    String.intercalate "\n" (asc.map (fun pageNum =>
      "--- Page " ++ toString pageNum ++ " ---\n" ++
        ((mapGet results pageNum).getD ⟨0, "", 0⟩).text ++ "\n"))

/-! ## Hebrew text validation (validateHebrewText, src/utils/ocrUtils.js) -/

/-- JavaScript whitespace class (the regex class for whitespace, which is also
the set of characters removed by String.trim). -/
def isJsWhitespace (c : Char) : Bool :=
  let n := c.toNat
  n = 0x9 || n = 0xA || n = 0xB || n = 0xC || n = 0xD || n = 0x20 ||
  n = 0xA0 || n = 0x1680 || (0x2000 ≤ n && n ≤ 0x200A) || n = 0x2028 ||
  n = 0x2029 || n = 0x202F || n = 0x205F || n = 0x3000 || n = 0xFEFF

/-- Hebrew block U+0590 to U+05FF (hebrewRegex). -/
def isHebrewChar (c : Char) : Bool := 0x590 ≤ c.toNat && c.toNat ≤ 0x5FF

/-- Main Hebrew letters U+05D0 to U+05EA (hebrewLettersRegex). -/
def isHebrewLetter (c : Char) : Bool := 0x5D0 ≤ c.toNat && c.toNat ≤ 0x5EA

/-- Hebrew vowels and marks U+05B0 to U+05BD and U+05BF to U+05C7
(hebrewVowelsRegex). -/
def isHebrewVowel (c : Char) : Bool :=
  (0x5B0 ≤ c.toNat && c.toNat ≤ 0x5BD) || (0x5BF ≤ c.toNat && c.toNat ≤ 0x5C7)

/-- Hebrew punctuation U+05BE, U+05C0, U+05C3, U+05C6, U+05F3, U+05F4
(hebrewPunctuationRegex). -/
def isHebrewPunct (c : Char) : Bool :=
  c.toNat = 0x5BE || c.toNat = 0x5C0 || c.toNat = 0x5C3 || c.toNat = 0x5C6 ||
  c.toNat = 0x5F3 || c.toNat = 0x5F4

/-- Common punctuation kept inside words: whitespace and . , ; : ! ? ( ) the
double quote, the apostrophe, and the hyphen. -/
def isCommonKept (c : Char) : Bool :=
  isJsWhitespace c || c.toNat = 0x2E || c.toNat = 0x2C || c.toNat = 0x3B ||
  c.toNat = 0x3A || c.toNat = 0x21 || c.toNat = 0x3F || c.toNat = 0x28 ||
  c.toNat = 0x29 || c.toNat = 0x22 || c.toNat = 0x27 || c.toNat = 0x2D

/-- A character kept by the word-cleaning loop of validateHebrewText. -/
def isKeptChar (c : Char) : Bool :=
  isHebrewLetter c || isHebrewVowel c || isHebrewPunct c || isCommonKept c

/-- JavaScript String.trim on a character list. -/
def jsTrim (l : List Char) : List Char :=
  ((l.dropWhile isJsWhitespace).reverse.dropWhile isJsWhitespace).reverse

/-- JavaScript Array.join(separator) over character lists. -/
def joinSep (sep : Char) : List (List Char) → List Char
  | [] => []
  | [w] => w
  | w :: ws => w ++ sep :: joinSep sep ws

/-- Accumulator pass of the newline split: collect characters until a newline
is hit. -/
def splitNlAux : List Char → List Char → List (List Char)
  | [], acc => [acc.reverse]
  | c :: cs, acc =>
    if c = '\n' then acc.reverse :: splitNlAux cs []
    else splitNlAux cs (c :: acc)

/-- JavaScript text.split with a newline separator (keeps empty segments; the
empty string yields one empty segment). -/
def splitNl (l : List Char) : List (List Char) := splitNlAux l []

/-- Accumulator pass collecting the maximal whitespace-free runs of a line. -/
def wordsAux : List Char → List Char → List (List Char)
  | [], acc => if acc.isEmpty then [] else [acc.reverse]
  | c :: cs, acc =>
    if isJsWhitespace c then
      if acc.isEmpty then wordsAux cs [] else acc.reverse :: wordsAux cs []
    else wordsAux cs (c :: acc)

/-- The words of a line.  The source computes line.trim().split on whitespace
runs and then skips any word whose trim is empty; the surviving words are
exactly the maximal whitespace-free runs of the line. -/
def wordsOfLine (l : List Char) : List (List Char) := wordsAux l []

/-- Per-word step of validateHebrewText: skip the word unless it contains a
character of the Hebrew block; strip characters outside the kept classes;
keep the trimmed cleaned word only if that trim is nonempty (JS truthiness of
cleanedWord.trim()) and the cleaned word still contains a main Hebrew
letter. -/
def processWord (w : List Char) : Option (List Char) :=
  if w.any isHebrewChar then
    let cleanedWord := w.filter isKeptChar
    if jsTrim cleanedWord ≠ [] ∧ cleanedWord.any isHebrewLetter then
      some (jsTrim cleanedWord)
    else none
  else none

/-- Per-line step of validateHebrewText: a line survives only if it has at
least one valid word; its valid words are joined with single spaces. -/
def processLine (l : List Char) : Option (List Char) :=
  let validWords := (wordsOfLine l).filterMap processWord
  if validWords ≠ [] then some (joinSep ' ' validWords) else none

/-- Core of validateHebrewText on the character list of a string: clean every
line, keep the surviving lines, join them with newlines and trim. -/
def validateHebrewTextL (l : List Char) : List Char :=
  jsTrim (joinSep '\n' ((splitNl l).filterMap processLine))

/-- Embedding of validateHebrewText for string inputs.  The guard
(falsy or non-string input returns the empty string) returns the empty string
for the empty string itself; non-string inputs are covered by
validateHebrewInput. -/
def validateHebrewText (s : String) : String :=
  if s = "" then "" else ⟨validateHebrewTextL s.data⟩

/-- A JavaScript value passed to validateHebrewText: null or undefined, some
other non-string value, or a string. -/
inductive JsInput where
  | nullish
  | nonString
  | str (s : String)

/-- validateHebrewText including its dynamic-type guard on the input. -/
def validateHebrewInput : JsInput → String
  | .nullish => ""
  | .nonString => ""
  | .str s => validateHebrewText s

/-- Shape of the words produced by the cleaning loop: nonempty,
whitespace-free, all characters in the kept classes, and containing a main
Hebrew letter. -/
def GoodWord (w : List Char) : Prop :=
  w ≠ [] ∧ (∀ c ∈ w, isJsWhitespace c = false) ∧
  (∀ c ∈ w, isKeptChar c = true) ∧ ∃ c ∈ w, isHebrewLetter c = true

/-- Shape of the lines produced by processLine: a space-join of at least one
good word. -/
def GoodLine (l : List Char) : Prop :=
  ∃ ws, l = joinSep ' ' ws ∧ ws ≠ [] ∧ ∀ w ∈ ws, GoodWord w

/-- Pixel-column projection of a synthetic 100-wide raster with a text-free
band at x = 40..59, used to exercise the gap scan on a concrete input. -/
def projBand : Nat → Nat := fun x => if 40 ≤ x ∧ x < 60 then 0 else 1000

/-! ## Two-column page text combination
    (processWithColumnDetection, src/utils/columnOcrUtils.js) -/

/-- Embedding of the two-column branch of `processWithColumnDetection`
(reached in `force_columns` mode or when columns are detected).  When the
detector found columns, `rightColumnBounds := detection.rightColumn` and
`leftColumnBounds := detection.leftColumn`; otherwise the forced 50/50 split
sets `rightColumnBounds := {x: halfWidth, width: halfWidth}` and
`leftColumnBounds := {x: 0, width: halfWidth}`.  `recognize x w` abstracts
`extractColumnImage` + preprocessing + the OCR engine + Hebrew validation on
the sub-image starting at pixel column `x` with width `w`; the combined text
is the template `--- Right Column ---\n` + leftScriptResult.text +
`\n\n--- Left Column ---\n` + rightScriptResult.text, exactly as in the
source. -/
def twoColumnFullText (canvasWidth : Nat) (det : DetectResult)
    (recognize : Nat → Nat → String) : String :=
  match det with
  | .columns rX rW lX lW _ _ _ _ =>
    let rightText := recognize rX rW
    let leftText := recognize lX lW
    "--- Right Column ---\n" ++ leftText ++
      "\n\n--- Left Column ---\n" ++ rightText
  | .noColumns =>
    let halfWidth := canvasWidth / 2
    let rightText := recognize halfWidth halfWidth
    let leftText := recognize 0 halfWidth
    "--- Right Column ---\n" ++ leftText ++
      "\n\n--- Left Column ---\n" ++ rightText

/-! ## Per-page processing and the chunked executor
    (processSinglePage, processChunked, src/utils/ocrUtils.js) -/

/-- Outcome of the engine calls for one page inside the `try` block of
`processSinglePage`: success with the raw recognized text and confidence, a
throw before the memory-estimate increment (e.g. `pdf.getPage` fails), or a
throw after it (e.g. render or recognition fails). -/
inductive PageOutcome where
  | ok (rawText : String) (confidence : ℚ)
  | errBefore (msg : String)
  | errAfter (msg : String)
deriving DecidableEq

/-- Embedding of `processSinglePage`: on success the recognized text is run
through `validateHebrewText`; a thrown error is caught and replaced by the
placeholder `[Error processing page N: <message>]` with confidence 0.
`processHebrewSeferPage` has the identical catch clause. -/
def processSinglePage (engine : Nat → PageOutcome) (pageNum : Nat) : PageResult :=
  match engine pageNum with
  | .ok raw conf => ⟨pageNum, validateHebrewText raw, conf⟩
  | .errBefore msg =>
    ⟨pageNum, "[Error processing page " ++ toString pageNum ++ ": " ++ msg ++ "]", 0⟩
  | .errAfter msg =>
    ⟨pageNum, "[Error processing page " ++ toString pageNum ++ ": " ++ msg ++ "]", 0⟩

/-- Net effect of one page on the live memory estimate: the success path does
`setMemoryUsage(prev + memUsage)` before rendering and
`setMemoryUsage(prev - memUsage)` after recognition (net 0); a throw before
the increment leaves the estimate unchanged; a throw after the increment
skips the decrement, leaking `pageMem pageNum`. -/
def pageMemDelta (engine : Nat → PageOutcome) (pageMem : Nat → ℚ)
    (pageNum : Nat) : ℚ :=
  match engine pageNum with
  | .ok _ _ => 0
  | .errBefore _ => 0
  | .errAfter _ => pageMem pageNum

/-- Observed facts about one iteration of the chunk loop: its page range, the
live memory estimate as the chunk starts, and whether the cleanup ran. -/
structure ChunkTrace where
  startPage : Nat
  endPage : Nat
  memAtStart : ℚ
  cleanupRan : Bool
deriving DecidableEq

/-- Loop of `processChunked` (and of `processChunkedHebrewSefer`, which is
identical): `for (startPage = 1; startPage <= totalPages; startPage += chunkSize)`.
`memoryUsage` is the value destructured from `callbacks` once at function
entry — the `memoryUsage > 800` check reads that constant; `memCur` is the
live estimate, which the cleanup (`prev => prev * 0.7`) and the per-page
deltas act on.  `fuel` bounds the iteration count (`totalPages` iterations
suffice whenever `chunkSize ≥ 1`). -/
def processChunkedAux (engine : Nat → PageOutcome) (pageMem : Nat → ℚ)
    (totalPages chunkSize : Nat) (memoryUsage : ℚ) :
    Nat → Nat → ℚ → ResultMap → ResultMap × List ChunkTrace
  | 0, _, _, results => (results, [])
  | fuel + 1, startPage, memCur, results =>
    if startPage ≤ totalPages then
      let endPage := min (startPage + chunkSize - 1) totalPages
      let doClean := decide (memoryUsage > 800)
      let memAfterClean := if doClean then memCur * (7 / 10) else memCur
      let pages := List.range' startPage (endPage + 1 - startPage)
      let chunkResults := pages.map (processSinglePage engine)
      let results2 := chunkResults.foldl (fun m r => mapSet m r.pageNum r) results
      let memNext := memAfterClean + (pages.map (pageMemDelta engine pageMem)).sum
      let rec2 := processChunkedAux engine pageMem totalPages chunkSize
        memoryUsage fuel (startPage + chunkSize) memNext results2
      (rec2.1, ⟨startPage, endPage, memCur, doClean⟩ :: rec2.2)
    else (results, [])

/-- Embedding of `processChunked(pdf, chunkSize, callbacks)`: `memoryUsage`
is the value captured from `callbacks` at entry and `memLive0` the live
estimate when the job starts. -/
def processChunked (engine : Nat → PageOutcome) (pageMem : Nat → ℚ)
    (totalPages chunkSize : Nat) (memoryUsage memLive0 : ℚ) :
    ResultMap × List ChunkTrace :=
  processChunkedAux engine pageMem totalPages chunkSize memoryUsage
    totalPages 1 memLive0 []

/-- Engine oracle for the C3 counterexample: page 1 throws after the memory
increment (leaking its raster estimate); every other page succeeds. -/
def engineLeak : Nat → PageOutcome :=
  fun n => if n = 1 then .errAfter "boom" else .ok "שלום" 80

/-- Raster memory estimate of 1000 MB-equivalent per page. -/
def pageMemBig : Nat → ℚ := fun _ => 1000

/-! ## The parallel executor and its slot "semaphore"
    (processParallel, src/utils/ocrUtils.js;
    processParallelHebrewSefer is identical) -/

/-- A suspended continuation of `processPage(page)`: `k1` resumes after the
first `await semaphore[semIndex]`; `k2` resumes after awaiting the page's own
`processSinglePage` promise. -/
inductive ParTask where
  | k1 (page : Nat)
  | k2 (page : Nat)
deriving DecidableEq

/-- State of the JavaScript event loop while `processParallel` runs.
Promise ids: `0` is the initial `Promise.resolve()` that fills every slot;
`n ≥ 1` is the promise of `processSinglePage(pdf, n, ...)`.  `inFlight`
counts pages whose `processSinglePage` call has started and not yet
settled. -/
structure ParState where
  maxConcurrency : Nat
  numPages : Nat
  semIndex : Nat
  semaphore : List Nat
  resolved : List Nat
  waiters : List (Nat × ParTask)
  queue : List ParTask
  inFlight : Nat
  started : List Nat
  finished : List Nat
  resultsPages : List Nat
deriving DecidableEq

/-- The synchronous prefix of `processPage(page)`: evaluate
`semaphore[semIndex]` and await it.  Awaiting an already-resolved promise
still yields: the continuation goes to the back of the microtask queue;
otherwise it is registered as a waiter of that promise. -/
def firstAwait (s : ParState) (page : Nat) : ParState :=
  let h := s.semaphore.getD s.semIndex 0
  if h ∈ s.resolved then { s with queue := s.queue ++ [.k1 page] }
  else { s with waiters := s.waiters ++ [(h, .k1 page)] }

/-- Launch of `processParallel`: fill the slot array with resolved promises,
set `semIndex = 0`, then synchronously call `processPage(i)` for
`i = 1..numPages`, each of which runs to its first await. -/
def parInit (numPages maxConcurrency : Nat) : ParState :=
  let s0 : ParState :=
    ⟨maxConcurrency, numPages, 0, List.replicate maxConcurrency 0, [0],
      [], [], 0, [], [], []⟩
  (List.range' 1 numPages).foldl firstAwait s0

/-- Run one resumed continuation to its next suspension point.
`k1 page`: `semaphore[semIndex] = processSinglePage(...)` starts the page and
stores its promise in the current slot, then `await semaphore[semIndex]`
reads that same slot again.  `k2 page`: store the result and advance
`semIndex = (semIndex + 1) % maxConcurrency`. -/
def runParTask (s : ParState) (t : ParTask) : ParState :=
  match t with
  | .k1 page =>
    let sem2 := s.semaphore.set s.semIndex page
    let h := sem2.getD s.semIndex 0
    let s2 := { s with
      semaphore := sem2
      inFlight := s.inFlight + 1
      started := s.started ++ [page] }
    if h ∈ s2.resolved then { s2 with queue := s2.queue ++ [.k2 page] }
    else { s2 with waiters := s2.waiters ++ [(h, .k2 page)] }
  | .k2 page =>
    { s with
      resultsPages := s.resultsPages ++ [page]
      semIndex := (s.semIndex + 1) % s.maxConcurrency }

/-- One event-loop step: run the microtask at the head of the queue, or let
the engine settle the promise of an in-flight page (which wakes its
waiters). -/
inductive ParAction where
  | micro
  | complete (page : Nat)
deriving DecidableEq

/-- Small-step transition of the event-loop model; `none` when the action is
not enabled. -/
def parStep (s : ParState) : ParAction → Option ParState
  | .micro =>
    match s.queue with
    | [] => none
    | t :: rest => some (runParTask { s with queue := rest } t)
  | .complete page =>
    if page ∈ s.started ∧ ¬page ∈ s.finished then
      let woken := (s.waiters.filter (fun w => w.1 = page)).map Prod.snd
      some { s with
        finished := s.finished ++ [page]
        inFlight := s.inFlight - 1
        resolved := s.resolved ++ [page]
        waiters := s.waiters.filter (fun w => ¬(w.1 = page))
        queue := s.queue ++ woken }
    else none

/-- Run a sequence of event-loop steps. -/
def parRun (s : ParState) : List ParAction → Option ParState
  | [] => some s
  | a :: rest =>
    match parStep s a with
    | some s2 => parRun s2 rest
    | none => none

/-- Shape of the chunk trace of the chunked executor from a loop position
`start`: the first chunk starts at `start`, consecutive chunks are exactly
`chunkSize` apart, every chunk covers the contiguous range
`[startPage, min (startPage + chunkSize - 1) total]` inside the document, the
last chunk's successor position would exceed the page count, the trace is
empty exactly when the loop has nothing to do, and every chunk's cleanup
decision equals the fixed `memoryUsage > 800` test on the job-entry value. -/
def TraceOk (total cs : Nat) (mem0 : ℚ) (start : Nat) (t : List ChunkTrace) : Prop :=
  (∀ c, t.head? = some c → c.startPage = start) ∧
  List.Chain' (fun c1 c2 => c2.startPage = c1.startPage + cs) t ∧
  (∀ c ∈ t, c.endPage = min (c.startPage + cs - 1) total ∧
    start ≤ c.startPage ∧ c.startPage ≤ total ∧
    c.cleanupRan = decide (mem0 > 800)) ∧
  (∀ c, t.getLast? = some c → total < c.startPage + cs) ∧
  (t = [] ↔ total < start)

/-- Concrete page result used by witnesses. -/
def prA : PageResult := ⟨1, "shalom", 80⟩

/-- Second concrete page result used by witnesses. -/
def prB : PageResult := ⟨2, "torah", 75⟩

/-- C4: strategy selection is a pure deterministic function of
(mode, pageCount, fileSizeMB); a mode other than "auto" is returned verbatim,
and in "auto" mode the result is determined by the page count alone with
exact boundaries at 5/6, 15/16 and 50/51, for every file size. -/
theorem selectProcessingStrategy_C4 (mode : String) (pageCount : Nat)
    (fileSizeMB fs2 : ℚ) :
    selectProcessingStrategy mode pageCount fileSizeMB
        = selectProcessingStrategy mode pageCount fs2 ∧
    (mode ≠ "auto" → selectProcessingStrategy mode pageCount fileSizeMB = mode) ∧
    (selectProcessingStrategy "auto" pageCount fileSizeMB = "parallel"
        ↔ pageCount ≤ 5) ∧
    (selectProcessingStrategy "auto" pageCount fileSizeMB = "batch"
        ↔ 6 ≤ pageCount ∧ pageCount ≤ 15) ∧
    (selectProcessingStrategy "auto" pageCount fileSizeMB = "chunked"
        ↔ 16 ≤ pageCount ∧ pageCount ≤ 50) ∧
    (selectProcessingStrategy "auto" pageCount fileSizeMB = "progressive"
        ↔ 51 ≤ pageCount) := by
  refine ⟨rfl, fun h => by simp [selectProcessingStrategy, h], ?_, ?_, ?_, ?_⟩ <;>
  · simp only [selectProcessingStrategy]
    rw [if_neg (by simp)]
    split_ifs with h1 h2 h3 <;>
      first
        | exact iff_of_true rfl (by omega)
        | exact iff_of_false (by decide) (by omega)

/-- Witness for C4 at concrete inputs. -/
theorem selectProcessingStrategy_C4_witness :
    selectProcessingStrategy "chunked" 7 (0 : ℚ) = "chunked" ∧
    selectProcessingStrategy "auto" 16 (0 : ℚ) = "chunked" :=
  ⟨(selectProcessingStrategy_C4 "chunked" 7 0 0).2.1 (by decide),
   ((selectProcessingStrategy_C4 "auto" 16 0 0).2.2.2.2.1).mpr
      ⟨by decide, by decide⟩⟩

/-- C8: the confidence reported by the column-detection scan is exactly
`min(gapWidth / minGapWidth, 5) / 5`; for a fixed minimum gap width this
quantity strictly increases as the detected gap widens, until it saturates at
1 for gaps at least five times the minimum gap width. -/
theorem columnConfidence_C8 :
    (∀ width proj sx ex mg md rX rW lX lW conf gs gw sep,
        detectColumnsScan width proj sx ex mg md
            = .columns rX rW lX lW conf gs gw sep →
          conf = columnConfidence gw mg) ∧
    (∀ mg g1 g2 : Nat, 0 < mg → g1 < g2 → g1 < 5 * mg →
        columnConfidence g1 mg < columnConfidence g2 mg) ∧
    (∀ mg g : Nat, 0 < mg → 5 * mg ≤ g → columnConfidence g mg = 1) := by
  refine ⟨?_, ?_, ?_⟩
  · intro width proj sx ex mg md rX rW lX lW conf gs gw sep h
    simp only [detectColumnsScan] at h
    split at h
    · injection h with h1 h2 h3 h4 h5 h6 h7 h8
      rw [← h5, h7]
    · exact DetectResult.noConfusion h
  · intro mg g1 g2 hm h12 hsat
    have hmQ : (0 : ℚ) < mg := by exact_mod_cast hm
    have hg1 : (g1 : ℚ) / mg < 5 := by
      rw [div_lt_iff hmQ]
      have : (g1 : ℚ) < 5 * mg := by exact_mod_cast hsat
      linarith
    have hg12 : (g1 : ℚ) / mg < (g2 : ℚ) / mg := by
      rw [div_lt_div_iff hmQ hmQ]
      exact mul_lt_mul_of_pos_right (by exact_mod_cast h12) hmQ
    unfold columnConfidence
    rw [min_eq_left hg1.le, div_lt_div_iff (by norm_num) (by norm_num)]
    exact mul_lt_mul_of_pos_right (lt_min hg12 hg1) (by norm_num)
  · intro mg g hm hg
    have hmQ : (0 : ℚ) < mg := by exact_mod_cast hm
    have h5 : (5 : ℚ) ≤ (g : ℚ) / mg := by
      rw [le_div_iff hmQ]
      exact_mod_cast by linarith [hg]
    unfold columnConfidence
    rw [min_eq_right h5]
    norm_num

/-- Witness for C8: the scan on a synthetic raster with a 20-pixel band
reports the formula's value, and the formula is strictly monotone below and
saturated above five times the minimum gap width, at concrete inputs. -/
theorem columnConfidence_C8_witness :
    columnConfidence 20 2 = columnConfidence 20 2 ∧
    columnConfidence 3 2 < columnConfidence 4 2 ∧
    columnConfidence 10 2 = 1 :=
  ⟨columnConfidence_C8.1 100 projBand 30 70 2 1 0 50 50 50
      (columnConfidence 20 2) 40 20 50 rfl,
   columnConfidence_C8.2.1 2 3 4 (by decide) (by decide) (by decide),
   columnConfidence_C8.2.2 2 10 (by decide) (by decide)⟩

/-! ## Helper lemmas about the result map and key sorting -/

theorem le_foldr_max (keys : List Nat) : ∀ k ∈ keys, k ≤ keys.foldr max 0 := by
  induction keys with
  | nil => intro k hk; cases hk
  | cons a t ih =>
    intro k hk
    rw [List.foldr_cons]
    rcases List.mem_cons.mp hk with hk | hk
    · exact hk ▸ le_max_left _ _
    · exact le_trans (ih k hk) (le_max_right _ _)

theorem sortKeys_eq_rangeFilter (keys : List Nat) (hnd : keys.Nodup) :
    List.insertionSort (· ≤ ·) keys
      = (List.range (keys.foldr max 0 + 1)).filter (fun k => k ∈ keys) := by
  have hfitnd : ((List.range (keys.foldr max 0 + 1)).filter
      (fun k => decide (k ∈ keys))).Nodup :=
    List.Nodup.filter _ (List.nodup_range _)
  have hp : (List.insertionSort (· ≤ ·) keys).Perm
      ((List.range (keys.foldr max 0 + 1)).filter (fun k => k ∈ keys)) := by
    refine (List.perm_insertionSort _ keys).trans ?_
    rw [List.perm_ext_iff_of_nodup hnd hfitnd]
    intro a
    simp only [List.mem_filter, List.mem_range, decide_eq_true_eq]
    exact ⟨fun h => ⟨Nat.lt_succ_of_le (le_foldr_max keys a h), h⟩, fun h => h.2⟩
  exact @List.eq_of_perm_of_sorted ℕ (· ≤ ·) _ _ _ hp
    (List.sorted_insertionSort _ keys) ((List.sorted_le_range _).filter _)

theorem mapSet_notMem (m : ResultMap) (k : Nat) (v : PageResult)
    (hk : k ∉ m.map Prod.fst) : mapSet m k v = m ++ [(k, v)] := by
  induction m with
  | nil => rfl
  | cons kv rest ih =>
    simp only [List.map_cons, List.mem_cons, not_or] at hk
    simp only [mapSet]
    rw [if_neg (fun h => hk.1 h.symm), ih hk.2]
    rfl

theorem foldl_mapSet_append (l : List (Nat × PageResult)) :
    ∀ m : ResultMap, (m.map Prod.fst ++ l.map Prod.fst).Nodup →
      l.foldl (fun m kv => mapSet m kv.1 kv.2) m = m ++ l := by
  induction l with
  | nil => intro m _; simp
  | cons kv rest ih =>
    intro m h
    simp only [List.map_cons] at h
    rw [List.nodup_append] at h
    obtain ⟨hA, hcons, hdisj⟩ := h
    have hk : kv.1 ∉ m.map Prod.fst := fun hm => hdisj hm (List.mem_cons_self _ _)
    rw [List.foldl_cons]
    show List.foldl (fun m kv => mapSet m kv.1 kv.2) (mapSet m kv.1 kv.2) rest
        = m ++ kv :: rest
    rw [mapSet_notMem m kv.1 kv.2 hk]
    have h2 : ((m ++ [(kv.1, kv.2)]).map Prod.fst ++ rest.map Prod.fst).Nodup := by
      simp only [List.map_append, List.map_cons, List.map_nil, List.append_assoc,
        List.singleton_append]
      rw [List.nodup_append]
      exact ⟨hA, hcons, hdisj⟩
    rw [ih (m ++ [(kv.1, kv.2)]) h2, List.append_assoc]
    rfl

theorem buildMap_self (l : List (Nat × PageResult))
    (hnd : (l.map Prod.fst).Nodup) : buildMap l = l := by
  have h := foldl_mapSet_append l [] (by simpa using hnd)
  simpa [buildMap] using h

theorem intercalate_singleton (s x : String) : String.intercalate s [x] = x := rfl

theorem mapGet_perm :
    ∀ {l1 l2 : ResultMap}, l1.Perm l2 → (l1.map Prod.fst).Nodup →
      ∀ k, mapGet l1 k = mapGet l2 k := by
  intro l1 l2 hperm
  induction hperm with
  | nil => intro _ _; rfl
  | cons x p ih =>
    intro hnd k
    simp only [List.map_cons, List.nodup_cons] at hnd
    simp only [mapGet]
    by_cases h : x.1 = k
    · rw [if_pos h, if_pos h]
    · rw [if_neg h, if_neg h]
      exact ih hnd.2 k
  | swap x y t =>
    intro hnd k
    simp only [List.map_cons, List.nodup_cons, List.mem_cons, not_or] at hnd
    simp only [mapGet]
    by_cases h1 : y.1 = k
    · rw [if_pos h1]
      have h2 : x.1 ≠ k := fun h2 => hnd.1.1 (h1.trans h2.symm)
      rw [if_neg h2, if_pos h1]
    · rw [if_neg h1]
      by_cases h2 : x.1 = k
      · rw [if_pos h2, if_pos h2]
      · rw [if_neg h2, if_neg h2, if_neg h1]
  | trans p1 p2 ih1 ih2 =>
    intro hnd k
    have hnd2 := ((p1.map Prod.fst).nodup_iff).mp hnd
    exact (ih1 hnd k).trans (ih2 hnd2 k)

theorem finalizeResults_perm (ft : String) (l1 l2 : ResultMap)
    (hperm : l1.Perm l2) (hnd : (l1.map Prod.fst).Nodup) :
    finalizeResults ft l1 = finalizeResults ft l2 := by
  have hkperm : (l1.map Prod.fst).Perm (l2.map Prod.fst) := hperm.map _
  have hsort : List.insertionSort (· ≤ ·) (l1.map Prod.fst)
      = List.insertionSort (· ≤ ·) (l2.map Prod.fst) :=
    @List.eq_of_perm_of_sorted ℕ (· ≤ ·) _ _ _
      ((List.perm_insertionSort _ _).trans
        (hkperm.trans (List.perm_insertionSort _ _).symm))
      (List.sorted_insertionSort _ _) (List.sorted_insertionSort _ _)
  simp only [finalizeResults]
  rw [hsort, hperm.length_eq]
  apply congrArg
  apply List.map_congr_left
  intro p _
  rw [mapGet_perm hperm hnd p]

/-- C5: finalization sorts keys numerically ascending; for an image job whose
map has exactly one entry it returns that entry's text unmodified with no
page banner, and for every other map it emits the page banner for each key in
ascending order, joined by blank lines — stated as agreement with
`specFinalizeResults`, which derives the ascending order by an independent
mechanism. -/
theorem finalizeResults_C5 (ft : String) (results : ResultMap)
    (hnd : (results.map Prod.fst).Nodup) :
    finalizeResults ft results = specFinalizeResults ft results := by
  by_cases hc : ft = "image" ∧ results.length = 1
  · obtain ⟨hft, hlen⟩ := hc
    obtain ⟨⟨k, v⟩, rfl⟩ := List.length_eq_one.mp hlen
    subst hft
    simp only [finalizeResults, specFinalizeResults, List.map_cons, List.map_nil,
      List.insertionSort, List.orderedInsert, mapGet, if_pos rfl, List.length_cons,
      List.length_nil, and_self, if_true, List.head?_cons]
    rfl
  · simp only [finalizeResults, specFinalizeResults, if_neg hc]
    rw [sortKeys_eq_rangeFilter _ hnd]

/-- Witness for C5 at a concrete two-entry map inserted out of order. -/
theorem finalizeResults_C5_witness :
    finalizeResults "pdf" [(2, prB), (1, prA)]
      = specFinalizeResults "pdf" [(2, prB), (1, prA)] :=
  finalizeResults_C5 "pdf" [(2, prB), (1, prA)] (by decide)

/-- C6: finalization is pure and idempotent (two calls on the same map give
the same output) and insertion-order independent: building the map by
inserting the same key-value pairs in any permuted order yields the same
finalized output. -/
theorem finalizeResults_C6 (ft : String) (l1 l2 : List (Nat × PageResult))
    (hperm : l1.Perm l2) (hnd : (l1.map Prod.fst).Nodup) :
    finalizeResults ft (buildMap l1) = finalizeResults ft (buildMap l2) ∧
    finalizeResults ft (buildMap l1) = finalizeResults ft (buildMap l1) := by
  have hnd2 : (l2.map Prod.fst).Nodup := ((hperm.map Prod.fst).nodup_iff).mp hnd
  rw [buildMap_self l1 hnd, buildMap_self l2 hnd2]
  exact ⟨finalizeResults_perm ft l1 l2 hperm hnd, rfl⟩

/-- Witness for C6: inserting two concrete results in either order finalizes
identically. -/
theorem finalizeResults_C6_witness :
    finalizeResults "pdf" (buildMap [(1, prA), (2, prB)])
      = finalizeResults "pdf" (buildMap [(2, prB), (1, prA)]) :=
  (finalizeResults_C6 "pdf" [(1, prA), (2, prB)] [(2, prB), (1, prA)]
    (List.Perm.swap (2, prB) (1, prA) []) (by decide)).1

/-! ## Helper lemmas for Hebrew text validation -/

theorem isHebrewLetter_isHebrewChar {c : Char} (h : isHebrewLetter c = true) :
    isHebrewChar c = true := by
  simp only [isHebrewLetter, Bool.and_eq_true, decide_eq_true_eq] at h
  simp only [isHebrewChar, Bool.and_eq_true, decide_eq_true_eq]
  omega

theorem dropWhile_not_head (l : List Char)
    (h : ∀ c, l.head? = some c → isJsWhitespace c = false) :
    l.dropWhile isJsWhitespace = l := by
  cases l with
  | nil => rfl
  | cons a t => rw [List.dropWhile_cons, if_neg (by simp [h a rfl])]

theorem jsTrim_eq_self (l : List Char)
    (h1 : ∀ c, l.head? = some c → isJsWhitespace c = false)
    (h2 : ∀ c, l.getLast? = some c → isJsWhitespace c = false) :
    jsTrim l = l := by
  unfold jsTrim
  rw [dropWhile_not_head l h1,
    dropWhile_not_head l.reverse
      (fun c hc => h2 c (by rwa [List.head?_reverse] at hc)),
    List.reverse_reverse]

theorem jsTrim_of_no_ws (l : List Char)
    (h : ∀ c ∈ l, isJsWhitespace c = false) : jsTrim l = l :=
  jsTrim_eq_self l (fun c hc => h c (List.mem_of_mem_head? hc))
    (fun c hc => h c (by
      have : c ∈ l.reverse := List.mem_of_mem_head? (by rwa [List.head?_reverse])
      exact List.mem_reverse.mp this))

theorem joinSep_ne_nil (sep : Char) (w : List Char) (ws : List (List Char))
    (hw : w ≠ []) : joinSep sep (w :: ws) ≠ [] := by
  cases ws with
  | nil => simpa [joinSep] using hw
  | cons w2 rest => simp [joinSep]

theorem head?_joinSep (sep : Char) (w : List Char) (ws : List (List Char))
    (hw : w ≠ []) : (joinSep sep (w :: ws)).head? = w.head? := by
  cases ws with
  | nil => rfl
  | cons w2 rest =>
    show (w ++ sep :: joinSep sep (w2 :: rest)).head? = w.head?
    cases w with
    | nil => exact absurd rfl hw
    | cons a t => rfl

theorem getLast?_joinSep (sep : Char) :
    ∀ ws : List (List Char), (∀ u ∈ ws, u ≠ []) → ws ≠ [] →
      ∃ w ∈ ws, (joinSep sep ws).getLast? = w.getLast? := by
  intro ws
  induction ws with
  | nil => intro _ h; exact absurd rfl h
  | cons w rest ih =>
    intro hne _
    cases rest with
    | nil => exact ⟨w, by simp, rfl⟩
    | cons w2 r2 =>
      obtain ⟨w', hw', heq⟩ := ih (fun u hu => hne u (by simp [hu])) (by simp)
      refine ⟨w', by simp [hw'], ?_⟩
      show (w ++ sep :: joinSep sep (w2 :: r2)).getLast? = w'.getLast?
      rw [List.getLast?_append_of_ne_nil w (by simp)]
      have hj : joinSep sep (w2 :: r2) ≠ [] :=
        joinSep_ne_nil sep w2 r2 (hne w2 (by simp))
      obtain ⟨a, t, hj2⟩ : ∃ a t, joinSep sep (w2 :: r2) = a :: t := by
        cases hjs : joinSep sep (w2 :: r2) with
        | nil => exact absurd hjs hj
        | cons a t => exact ⟨a, t, rfl⟩
      rw [hj2, List.getLast?_cons_cons, ← hj2]
      exact heq

theorem mem_joinSep (sep : Char) :
    ∀ (ws : List (List Char)) (c : Char), c ∈ joinSep sep ws →
      c = sep ∨ ∃ w ∈ ws, c ∈ w := by
  intro ws
  induction ws with
  | nil => intro c hc; cases hc
  | cons w rest ih =>
    intro c hc
    cases rest with
    | nil => exact Or.inr ⟨w, by simp, hc⟩
    | cons w2 r2 =>
      rcases List.mem_append.mp hc with hc | hc
      · exact Or.inr ⟨w, by simp, hc⟩
      · rcases List.mem_cons.mp hc with rfl | hc
        · exact Or.inl rfl
        · rcases ih c hc with h | ⟨w', hw', hcw⟩
          · exact Or.inl h
          · exact Or.inr ⟨w', by simp [hw'], hcw⟩

theorem splitNlAux_run (t : List Char) :
    ∀ (w acc : List Char), (∀ c ∈ w, ¬(c = '\n')) →
      splitNlAux (w ++ t) acc = splitNlAux t (w.reverse ++ acc) := by
  intro w
  induction w with
  | nil => intro acc _; simp
  | cons c w' ih =>
    intro acc h
    show splitNlAux (c :: (w' ++ t)) acc = _
    simp only [splitNlAux]
    rw [if_neg (h c (by simp))]
    rw [ih (c :: acc) (fun d hd => h d (by simp [hd]))]
    simp [List.append_assoc]

theorem splitNl_joinSep :
    ∀ lines : List (List Char), (∀ l ∈ lines, ∀ c ∈ l, ¬(c = '\n')) →
      lines ≠ [] → splitNl (joinSep '\n' lines) = lines := by
  intro lines
  induction lines with
  | nil => intro _ h; exact absurd rfl h
  | cons l rest ih =>
    intro h _
    cases rest with
    | nil =>
      show splitNlAux (joinSep '\n' [l]) [] = [l]
      have hl : joinSep '\n' [l] = l := rfl
      rw [hl, ← List.append_nil l, splitNlAux_run [] l [] (h l (by simp))]
      simp [splitNlAux]
    | cons l2 r2 =>
      show splitNlAux (l ++ '\n' :: joinSep '\n' (l2 :: r2)) [] = l :: l2 :: r2
      rw [splitNlAux_run _ l [] (h l (by simp))]
      have ihh := ih (fun u hu => h u (by simp [hu])) (by simp)
      simp only [splitNl] at ihh
      simp [splitNlAux, ihh]

theorem wordsAux_run (t : List Char) :
    ∀ (w acc : List Char), (∀ c ∈ w, isJsWhitespace c = false) →
      wordsAux (w ++ t) acc = wordsAux t (w.reverse ++ acc) := by
  intro w
  induction w with
  | nil => intro acc _; simp
  | cons c w' ih =>
    intro acc h
    show wordsAux (c :: (w' ++ t)) acc = _
    simp only [wordsAux]
    rw [if_neg (by simp [h c (by simp)])]
    rw [ih (c :: acc) (fun d hd => h d (by simp [hd]))]
    simp [List.append_assoc]

theorem wordsAux_joinSep :
    ∀ ws : List (List Char),
      (∀ w ∈ ws, w ≠ [] ∧ ∀ c ∈ w, isJsWhitespace c = false) →
      wordsAux (joinSep ' ' ws) [] = ws := by
  intro ws
  induction ws with
  | nil => intro _; rfl
  | cons w rest ih =>
    intro h
    obtain ⟨hwne, hwc⟩ := h w (by simp)
    cases rest with
    | nil =>
      show wordsAux (joinSep ' ' [w]) [] = [w]
      have hl : joinSep ' ' [w] = w := rfl
      rw [hl, ← List.append_nil w, wordsAux_run [] w [] hwc]
      simp [wordsAux, hwne]
    | cons w2 r2 =>
      show wordsAux (w ++ ' ' :: joinSep ' ' (w2 :: r2)) [] = w :: w2 :: r2
      rw [wordsAux_run _ w [] hwc]
      have ihh := ih (fun u hu => h u (by simp [hu]))
      simp only [wordsAux]
      rw [if_pos (show isJsWhitespace ' ' = true by decide),
        if_neg (by simp [hwne]), ihh]
      simp

theorem wordsAux_mem :
    ∀ l acc : List Char, (∀ c ∈ acc, isJsWhitespace c = false) →
      ∀ w ∈ wordsAux l acc, w ≠ [] ∧ ∀ c ∈ w, isJsWhitespace c = false := by
  intro l
  induction l with
  | nil =>
    intro acc hacc w hw
    simp only [wordsAux] at hw
    by_cases ha : acc.isEmpty = true
    · rw [if_pos ha] at hw; cases hw
    · rw [if_neg ha] at hw
      rcases List.mem_singleton.mp hw with rfl
      refine ⟨by simpa using ha, fun c hc => hacc c (List.mem_reverse.mp hc)⟩
  | cons c cs ih =>
    intro acc hacc w hw
    simp only [wordsAux] at hw
    by_cases hc : isJsWhitespace c = true
    · rw [if_pos hc] at hw
      by_cases ha : acc.isEmpty = true
      · rw [if_pos ha] at hw
        exact ih [] (by simp) w hw
      · rw [if_neg ha] at hw
        rcases List.mem_cons.mp hw with rfl | hw
        · refine ⟨by simpa using ha, fun d hd => hacc d (List.mem_reverse.mp hd)⟩
        · exact ih [] (by simp) w hw
    · rw [if_neg hc] at hw
      refine ih (c :: acc) ?_ w hw
      intro d hd
      rcases List.mem_cons.mp hd with rfl | hd
      · simpa using hc
      · exact hacc d hd

theorem wordsAux_subset :
    ∀ l acc : List Char, ∀ w ∈ wordsAux l acc, ∀ c ∈ w, c ∈ l ∨ c ∈ acc := by
  intro l
  induction l with
  | nil =>
    intro acc w hw c hc
    simp only [wordsAux] at hw
    by_cases ha : acc.isEmpty = true
    · rw [if_pos ha] at hw; cases hw
    · rw [if_neg ha] at hw
      rcases List.mem_singleton.mp hw with rfl
      exact Or.inr (List.mem_reverse.mp hc)
  | cons a cs ih =>
    intro acc w hw c hc
    simp only [wordsAux] at hw
    by_cases hca : isJsWhitespace a = true
    · rw [if_pos hca] at hw
      by_cases ha : acc.isEmpty = true
      · rw [if_pos ha] at hw
        rcases ih [] w hw c hc with h | h
        · exact Or.inl (by simp [h])
        · cases h
      · rw [if_neg ha] at hw
        rcases List.mem_cons.mp hw with rfl | hw
        · exact Or.inr (List.mem_reverse.mp hc)
        · rcases ih [] w hw c hc with h | h
          · exact Or.inl (by simp [h])
          · cases h
    · rw [if_neg hca] at hw
      rcases ih (a :: acc) w hw c hc with h | h
      · exact Or.inl (by simp [h])
      · rcases List.mem_cons.mp h with rfl | h
        · exact Or.inl (by simp)
        · exact Or.inr h

theorem splitNlAux_subset :
    ∀ l acc : List Char, ∀ seg ∈ splitNlAux l acc, ∀ c ∈ seg, c ∈ l ∨ c ∈ acc := by
  intro l
  induction l with
  | nil =>
    intro acc seg hseg c hc
    rcases List.mem_singleton.mp hseg with rfl
    exact Or.inr (List.mem_reverse.mp hc)
  | cons a cs ih =>
    intro acc seg hseg c hc
    simp only [splitNlAux] at hseg
    by_cases hnl : a = '\n'
    · rw [if_pos hnl] at hseg
      rcases List.mem_cons.mp hseg with rfl | hseg
      · exact Or.inr (List.mem_reverse.mp hc)
      · rcases ih [] seg hseg c hc with h | h
        · exact Or.inl (by simp [h])
        · cases h
    · rw [if_neg hnl] at hseg
      rcases ih (a :: acc) seg hseg c hc with h | h
      · exact Or.inl (by simp [h])
      · rcases List.mem_cons.mp h with rfl | h
        · exact Or.inl (by simp)
        · exact Or.inr h

theorem filterMap_fix {α : Type} (f : α → Option α) :
    ∀ l : List α, (∀ x ∈ l, f x = some x) → l.filterMap f = l := by
  intro l
  induction l with
  | nil => intro _; rfl
  | cons a t ih =>
    intro h
    rw [List.filterMap_cons, h a (by simp), ih (fun x hx => h x (by simp [hx]))]

theorem processWord_good (w w' : List Char)
    (hw : ∀ c ∈ w, isJsWhitespace c = false)
    (h : processWord w = some w') : GoodWord w' := by
  simp only [processWord] at h
  by_cases h1 : w.any isHebrewChar = true
  · rw [if_pos h1] at h
    by_cases h2 : jsTrim (w.filter isKeptChar) ≠ [] ∧
        (w.filter isKeptChar).any isHebrewLetter = true
    · rw [if_pos h2] at h
      have hclws : ∀ c ∈ w.filter isKeptChar, isJsWhitespace c = false :=
        fun c hc => hw c (List.mem_of_mem_filter hc)
      have htr : jsTrim (w.filter isKeptChar) = w.filter isKeptChar :=
        jsTrim_of_no_ws _ hclws
      have hw' : w' = w.filter isKeptChar := by
        injection h with h'
        rw [← h', htr]
      subst hw'
      obtain ⟨c, hc, hcl⟩ := List.any_eq_true.mp h2.2
      exact ⟨by rw [htr] at h2; exact h2.1, hclws,
        fun c hc => List.of_mem_filter hc, c, hc, hcl⟩
    · rw [if_neg h2] at h; cases h
  · rw [if_neg h1] at h; cases h

theorem processWord_fix (w : List Char) (h : GoodWord w) : processWord w = some w := by
  obtain ⟨hne, hws, hkept, c, hc, hletter⟩ := h
  have hany : w.any isHebrewChar = true :=
    List.any_eq_true.mpr ⟨c, hc, isHebrewLetter_isHebrewChar hletter⟩
  have hfilter : w.filter isKeptChar = w := List.filter_eq_self.mpr hkept
  have htrim : jsTrim w = w := jsTrim_of_no_ws w hws
  simp only [processWord]
  rw [if_pos hany, hfilter,
    if_pos ⟨by rwa [htrim], List.any_eq_true.mpr ⟨c, hc, hletter⟩⟩, htrim]

theorem processLine_good (l l' : List Char) (h : processLine l = some l') :
    GoodLine l' := by
  simp only [processLine] at h
  by_cases hv : (wordsOfLine l).filterMap processWord ≠ []
  · rw [if_pos hv] at h
    injection h with h'
    refine ⟨(wordsOfLine l).filterMap processWord, h'.symm, hv, ?_⟩
    intro w hw
    obtain ⟨w0, hw0, hw0p⟩ := List.mem_filterMap.mp hw
    exact processWord_good w0 w (wordsAux_mem l [] (by simp) w0 hw0).2 hw0p
  · rw [if_neg hv] at h; cases h

theorem processLine_fix (l : List Char) (h : GoodLine l) : processLine l = some l := by
  obtain ⟨ws, rfl, hne, hgood⟩ := h
  have hwords : wordsOfLine (joinSep ' ' ws) = ws :=
    wordsAux_joinSep ws (fun w hw => ⟨(hgood w hw).1, (hgood w hw).2.1⟩)
  simp only [processLine, wordsOfLine] at *
  rw [hwords, filterMap_fix processWord ws (fun w hw => processWord_fix w (hgood w hw)),
    if_pos hne]

theorem goodLine_props (l : List Char) (h : GoodLine l) :
    l ≠ [] ∧ (∀ c, l.head? = some c → isJsWhitespace c = false) ∧
    (∀ c, l.getLast? = some c → isJsWhitespace c = false) ∧
    (∀ c ∈ l, ¬(c = '\n')) := by
  obtain ⟨ws, rfl, hne, hgood⟩ := h
  obtain ⟨w0, ws', rfl⟩ : ∃ w0 ws', ws = w0 :: ws' := by
    cases ws with
    | nil => exact absurd rfl hne
    | cons a b => exact ⟨a, b, rfl⟩
  refine ⟨joinSep_ne_nil ' ' w0 ws' (hgood w0 (by simp)).1, ?_, ?_, ?_⟩
  · intro c hc
    rw [head?_joinSep ' ' w0 ws' (hgood w0 (by simp)).1] at hc
    exact (hgood w0 (by simp)).2.1 c (List.mem_of_mem_head? hc)
  · intro c hc
    obtain ⟨w', hw', heq⟩ := getLast?_joinSep ' ' (w0 :: ws')
      (fun u hu => (hgood u hu).1) (by simp)
    rw [heq] at hc
    have hcw : c ∈ w' := by
      rw [← List.head?_reverse] at hc
      exact List.mem_reverse.mp (List.mem_of_mem_head? hc)
    exact (hgood w' hw').2.1 c hcw
  · intro c hc
    rcases mem_joinSep ' ' (w0 :: ws') c hc with rfl | ⟨w', hw', hcw⟩
    · decide
    · have hcws := (hgood w' hw').2.1 c hcw
      intro heq
      rw [heq] at hcws
      exact absurd hcws (by decide)

/-- C7: Hebrew text validation is idempotent — re-filtering output the
validator already produced is a no-op, for every input string. -/
theorem validateHebrewText_C7 (s : String) :
    validateHebrewText (validateHebrewText s) = validateHebrewText s := by
  by_cases hs : s = ""
  · subst hs; rfl
  · have hgood : ∀ l ∈ (splitNl s.data).filterMap processLine, GoodLine l := by
      intro l hl
      obtain ⟨l0, _, hl0⟩ := List.mem_filterMap.mp hl
      exact processLine_good l0 l hl0
    cases hlc : (splitNl s.data).filterMap processLine with
    | nil =>
      have hv : validateHebrewText s = "" := by
        unfold validateHebrewText
        rw [if_neg hs]
        unfold validateHebrewTextL
        rw [hlc]
        rfl
      rw [hv]
      rfl
    | cons l0 rest =>
      rw [hlc] at hgood
      have hl0 := goodLine_props l0 (hgood l0 (by simp))
      have htrim : jsTrim (joinSep '\n' (l0 :: rest)) = joinSep '\n' (l0 :: rest) := by
        apply jsTrim_eq_self
        · intro c hc
          rw [head?_joinSep '\n' l0 rest hl0.1] at hc
          exact hl0.2.1 c hc
        · intro c hc
          obtain ⟨w', hw', heq⟩ := getLast?_joinSep '\n' (l0 :: rest)
            (fun u hu => (goodLine_props u (hgood u hu)).1) (by simp)
          rw [heq] at hc
          exact (goodLine_props w' (hgood w' hw')).2.2.1 c hc
      have hv : validateHebrewText s = ⟨joinSep '\n' (l0 :: rest)⟩ := by
        unfold validateHebrewText
        rw [if_neg hs]
        unfold validateHebrewTextL
        rw [hlc, htrim]
      rw [hv]
      have hne : joinSep '\n' (l0 :: rest) ≠ [] := joinSep_ne_nil '\n' l0 rest hl0.1
      have hsne : (⟨joinSep '\n' (l0 :: rest)⟩ : String) ≠ "" := by
        intro hcon
        exact hne (by simpa using congrArg String.data hcon)
      unfold validateHebrewText
      rw [if_neg hsne]
      have hL : validateHebrewTextL (joinSep '\n' (l0 :: rest))
          = joinSep '\n' (l0 :: rest) := by
        unfold validateHebrewTextL
        rw [splitNl_joinSep (l0 :: rest)
            (fun l hl c hc => (goodLine_props l (hgood l hl)).2.2.2 c hc) (by simp),
          filterMap_fix processLine (l0 :: rest)
            (fun l hl => processLine_fix l (hgood l hl))]
        exact htrim
      exact congrArg (fun d => (⟨d⟩ : String)) hL

/-- C10: validation is total on the JavaScript interface — null, undefined
and non-string inputs give the empty string — and every string with no main
Hebrew letter anywhere validates to the empty string. -/
theorem validateHebrew_C10 :
    validateHebrewInput .nullish = "" ∧ validateHebrewInput .nonString = "" ∧
    ∀ s : String, (∀ c ∈ s.data, isHebrewLetter c = false) →
      validateHebrewText s = "" := by
  refine ⟨rfl, rfl, ?_⟩
  intro s hs
  by_cases hse : s = ""
  · subst hse; rfl
  · unfold validateHebrewText
    rw [if_neg hse]
    have hlines : (splitNl s.data).filterMap processLine = [] := by
      apply List.filterMap_eq_nil_iff.mpr
      intro l hl
      have hwnil : (wordsOfLine l).filterMap processWord = [] := by
        apply List.filterMap_eq_nil_iff.mpr
        intro w hw
        have hsub : ∀ c ∈ w, c ∈ s.data := by
          intro c hc
          rcases wordsAux_subset l [] w hw c hc with h | h
          · rcases splitNlAux_subset s.data [] l hl c h with h2 | h2
            · exact h2
            · cases h2
          · cases h
        simp only [processWord]
        by_cases h1 : w.any isHebrewChar = true
        · have hno : ¬(jsTrim (w.filter isKeptChar) ≠ [] ∧
              (w.filter isKeptChar).any isHebrewLetter = true) := by
            intro hcond
            obtain ⟨c, hc, hcl⟩ := List.any_eq_true.mp hcond.2
            rw [hs c (hsub c (List.mem_of_mem_filter hc))] at hcl
            cases hcl
          rw [if_pos h1, if_neg hno]
        · rw [if_neg h1]
      simp only [processLine]
      rw [hwnil]
      simp
    unfold validateHebrewTextL
    rw [hlines]
    rfl

/-- Witness for C10: a concrete string with no Hebrew letter validates to the
empty string. -/
theorem validateHebrew_C10_witness : validateHebrewText "abc 123" = "" :=
  validateHebrew_C10.2.2 "abc 123" (by decide)

/-- C1: evaluation of the event-loop model of `processParallel` at a failing
input.  With maxConcurrency = 1 and 2 pages, after the synchronous launch
loop and two microtask steps — before any page has settled — both pages'
`processSinglePage` calls are in flight at once (and with maxConcurrency = 3
and 5 pages, all five are in flight): every `processPage` evaluates
`semaphore[semIndex]` while `semIndex` is still 0 and the slot still holds
the initial resolved promise, so the slot array never throttles anything. -/
theorem processParallel_C1 :
    (parRun (parInit 2 1) [.micro, .micro]).map ParState.inFlight = some 2 ∧
    (parRun (parInit 2 1) [.micro, .micro]).map ParState.finished = some [] ∧
    (parRun (parInit 5 3)
        [.micro, .micro, .micro, .micro, .micro]).map ParState.inFlight
      = some 5 := by
  decide

/-- C2: evaluation of the two-column text combiner.  In the forced 50/50
split (force_columns with no detectable gap) the text recognized from the
left half of the page (the region at x = 0) appears under the
`--- Right Column ---` header, so sefer reading order is not preserved there;
in the detected-columns case the header is followed by the recognition of
`leftColumn` bounds, which `detectColumns` places at the image-right side, so
that path does put the physically right column first. -/
theorem twoColumnFullText_C2 :
    (twoColumnFullText 100 .noColumns
        (fun x _ => if x = 0 then "LEFTHALF" else "RIGHTHALF")
      = "--- Right Column ---\nLEFTHALF\n\n--- Left Column ---\nRIGHTHALF") ∧
    ∀ (w rX rW lX lW : Nat) (conf : ℚ) (gs gw sep : Nat)
      (recognize : Nat → Nat → String),
      twoColumnFullText w (.columns rX rW lX lW conf gs gw sep) recognize
        = "--- Right Column ---\n" ++ recognize lX lW ++
          "\n\n--- Left Column ---\n" ++ recognize rX rW :=
  ⟨rfl, fun _ _ _ _ _ _ _ _ _ _ => rfl⟩

/-- C3 counterexample: running the chunked executor on 2 pages with chunk
size 1, job-entry memory estimate 0, where page 1 throws after its memory
increment and leaks a 1000 MB-equivalent raster: at the start of chunk 2 the
live memory estimate is 1000 > 800, yet no cleanup runs, because the check
reads the `memoryUsage` value destructured from `callbacks` at function
entry (still 0), not the estimate as it stands at the chunk's start. -/
theorem processChunked_C3_counterexample :
    ∃ c ∈ (processChunked engineLeak pageMemBig 2 1 0 0).2,
      800 < c.memAtStart ∧ c.cleanupRan = false := by
  have htr : (processChunked engineLeak pageMemBig 2 1 0 0).2
      = [⟨1, 1, 0, false⟩, ⟨2, 2, 1000, false⟩] := by
    norm_num [processChunked, processChunkedAux, engineLeak, pageMemBig,
      pageMemDelta, processSinglePage]
  rw [htr]
  exact ⟨⟨2, 2, 1000, false⟩, by simp, by norm_num, rfl⟩

theorem mapGet_mapSet_self (m : ResultMap) (k : Nat) (v : PageResult) :
    mapGet (mapSet m k v) k = some v := by
  induction m with
  | nil => simp [mapSet, mapGet]
  | cons kv rest ih =>
    by_cases h : kv.1 = k
    · simp [mapSet, mapGet, h]
    · simp only [mapSet]
      rw [if_neg h]
      simp only [mapGet]
      rw [if_neg h]
      exact ih

theorem mapGet_mapSet_ne (m : ResultMap) (k : Nat) (v : PageResult) (n : Nat)
    (h : ¬k = n) : mapGet (mapSet m k v) n = mapGet m n := by
  induction m with
  | nil =>
    simp only [mapSet, mapGet]
    rw [if_neg h]
  | cons kv rest ih =>
    by_cases hk : kv.1 = k
    · simp only [mapSet]
      rw [if_pos hk]
      simp only [mapGet]
      rw [hk, if_neg h, if_neg h]
    · simp only [mapSet]
      rw [if_neg hk]
      simp only [mapGet]
      by_cases hn : kv.1 = n
      · rw [if_pos hn, if_pos hn]
      · rw [if_neg hn, if_neg hn]
        exact ih

theorem processSinglePage_pageNum (engine : Nat → PageOutcome) (n : Nat) :
    (processSinglePage engine n).pageNum = n := by
  cases h : engine n <;> simp [processSinglePage, h]

theorem mapGet_processChunk (engine : Nat → PageOutcome) :
    ∀ (pages : List Nat) (m : ResultMap) (n : Nat),
      mapGet ((pages.map (processSinglePage engine)).foldl
          (fun acc r => mapSet acc r.pageNum r) m) n
        = if n ∈ pages then some (processSinglePage engine n)
          else mapGet m n := by
  intro pages
  induction pages with
  | nil => intro m n; simp
  | cons p rest ih =>
    intro m n
    simp only [List.map_cons, List.foldl_cons]
    rw [ih]
    by_cases hn : n ∈ rest
    · rw [if_pos hn, if_pos (by simp [hn])]
    · rw [if_neg hn]
      by_cases hp : n = p
      · subst hp
        rw [if_pos (by simp)]
        rw [processSinglePage_pageNum]
        exact mapGet_mapSet_self m n (processSinglePage engine n)
      · rw [if_neg (by simp [hp, hn])]
        rw [processSinglePage_pageNum]
        exact mapGet_mapSet_ne m p (processSinglePage engine p) n
          (fun hh => hp hh.symm)

theorem chunkedAux_results (engine : Nat → PageOutcome) (pageMem : Nat → ℚ)
    (total cs : Nat) (mem0 : ℚ) :
    ∀ (fuel start : Nat) (memCur : ℚ) (results : ResultMap) (n : Nat),
      total < start + fuel * cs →
      mapGet (processChunkedAux engine pageMem total cs mem0
          fuel start memCur results).1 n
        = if start ≤ n ∧ n ≤ total then some (processSinglePage engine n)
          else mapGet results n := by
  intro fuel
  induction fuel with
  | zero =>
    intro start memCur results n hb
    simp only [processChunkedAux]
    rw [if_neg (by omega)]
  | succ fuel ih =>
    intro start memCur results n hb
    simp only [processChunkedAux]
    by_cases hle : start ≤ total
    · rw [if_pos hle]
      have hb2 : total < (start + cs) + fuel * cs := by
        rw [Nat.succ_mul] at hb
        omega
      rw [ih (start + cs) _ _ n hb2]
      rw [mapGet_processChunk]
      have hmem : n ∈ List.range' start (min (start + cs - 1) total + 1 - start)
          ↔ start ≤ n ∧ n ≤ min (start + cs - 1) total := by
        rw [List.mem_range'_1]
        omega
      by_cases h1 : start ≤ n ∧ n ≤ total
      · rw [if_pos h1]
        by_cases h2 : start + cs ≤ n
        · rw [if_pos ⟨h2, h1.2⟩]
        · rw [if_neg (fun hc => h2 hc.1), if_pos (hmem.mpr ⟨h1.1, by omega⟩)]
      · rw [if_neg h1, if_neg (fun hc => h1 ⟨by omega, hc.2⟩),
          if_neg (fun hc => h1 ⟨(hmem.mp hc).1, by
            have := (hmem.mp hc).2
            omega⟩)]
    · rw [if_neg hle, if_neg (by omega)]

theorem TraceOk_cons (total cs : Nat) (mem0 : ℚ) (start : Nat) (memCur : ℚ)
    (T : List ChunkTrace) (hle : start ≤ total)
    (hT : TraceOk total cs mem0 (start + cs) T) :
    TraceOk total cs mem0 start
      (⟨start, min (start + cs - 1) total, memCur, decide (mem0 > 800)⟩ :: T) := by
  obtain ⟨h1, h2, h3, h4, h5⟩ := hT
  refine ⟨?_, ?_, ?_, ?_, ?_⟩
  · intro c h
    injection h with h'
    rw [← h']
  · exact List.chain'_cons'.mpr ⟨fun b hb => h1 b hb, h2⟩
  · intro c hc
    rcases List.mem_cons.mp hc with rfl | hc
    · exact ⟨rfl, Nat.le_refl _, hle, rfl⟩
    · obtain ⟨e1, e2, e3, e4⟩ := h3 c hc
      exact ⟨e1, by omega, e3, e4⟩
  · intro c h
    cases T with
    | nil =>
      rw [List.getLast?_singleton] at h
      injection h with h'
      rw [← h']
      exact h5.mp rfl
    | cons b T2 =>
      rw [List.getLast?_cons_cons] at h
      exact h4 c h
  · constructor
    · intro h
      exact absurd h (List.cons_ne_nil _ _)
    · intro h
      exact absurd h (by omega)

theorem chunkedAux_trace (engine : Nat → PageOutcome) (pageMem : Nat → ℚ)
    (total cs : Nat) (mem0 : ℚ) :
    ∀ (fuel start : Nat) (memCur : ℚ) (results : ResultMap),
      total < start + fuel * cs →
      TraceOk total cs mem0 start
        (processChunkedAux engine pageMem total cs mem0
          fuel start memCur results).2 := by
  intro fuel
  induction fuel with
  | zero =>
    intro start memCur results hb
    simp only [processChunkedAux]
    exact ⟨fun c h => (by cases h), trivial, fun c hc => (by cases hc),
      fun c h => (by cases h), (by simpa using (by omega : total < start))⟩
  | succ fuel ih =>
    intro start memCur results hb
    simp only [processChunkedAux]
    by_cases hle : start ≤ total
    · rw [if_pos hle]
      exact TraceOk_cons total cs mem0 start memCur _ hle
        (ih (start + cs) _ _ (by rw [Nat.succ_mul] at hb; omega))
    · rw [if_neg hle]
      exact ⟨fun c h => (by cases h), trivial, fun c hc => (by cases hc),
        fun c h => (by cases h), (by simpa using (by omega : total < start))⟩

/-- C3 (amended): the chunked executor processes page indices in strictly
sequential contiguous ranges of chunkSize (first chunk starts at page 1,
consecutive chunk starts are exactly chunkSize apart, each chunk covers
startPage..min (startPage + chunkSize - 1) totalPages, and the trace covers
the whole document), and before each chunk the cleanup decision is the fixed
test `memoryUsage > 800` on the memory estimate captured from `callbacks`
when the executor was entered — the same value for every chunk — not on the
estimate as it stands at that chunk's start. -/
theorem processChunked_C3 (engine : Nat → PageOutcome) (pageMem : Nat → ℚ)
    (total cs : Nat) (mem0 live0 : ℚ) (hcs : 1 ≤ cs) :
    TraceOk total cs mem0 1
      (processChunked engine pageMem total cs mem0 live0).2 := by
  unfold processChunked
  apply chunkedAux_trace
  have := Nat.mul_le_mul_left total hcs
  omega

/-- Witness for C3 (amended) at a concrete input: on the two-page job of the
counterexample the trace is nonempty and its cleanup flags are all the fixed
job-entry decision. -/
theorem processChunked_C3_witness :
    ((processChunked engineLeak pageMemBig 2 1 0 0).2 = [] ↔ 2 < 1) :=
  (processChunked_C3 engineLeak pageMemBig 2 1 0 0 (by decide)).2.2.2.2

/-- C9: when the engine throws while processing page n (whether before or
after the memory increment), the failure is caught at the unit boundary of
`processSinglePage`: the stored result under key n has exactly the text
`[Error processing page n: <message>]` and confidence 0, and every other
page of the job is still processed and stored — the failure is not fatal. -/
theorem processChunked_C9 (engine : Nat → PageOutcome) (pageMem : Nat → ℚ)
    (total cs : Nat) (mem0 live0 : ℚ) (hcs : 1 ≤ cs)
    (n : Nat) (h1 : 1 ≤ n) (h2 : n ≤ total) (msg : String)
    (herr : engine n = .errAfter msg ∨ engine n = .errBefore msg) :
    mapGet (processChunked engine pageMem total cs mem0 live0).1 n
      = some ⟨n, "[Error processing page " ++ toString n ++ ": " ++ msg ++ "]", 0⟩
    ∧ ∀ m, 1 ≤ m → m ≤ total →
        mapGet (processChunked engine pageMem total cs mem0 live0).1 m
          = some (processSinglePage engine m) := by
  have hfuel : total < 1 + total * cs := by
    have := Nat.mul_le_mul_left total hcs
    omega
  have hres := chunkedAux_results engine pageMem total cs mem0 total 1 live0 [] 
  constructor
  · rw [show (processChunked engine pageMem total cs mem0 live0).1
        = (processChunkedAux engine pageMem total cs mem0 total 1 live0 []).1
      from rfl]
    rw [hres n hfuel, if_pos ⟨h1, h2⟩]
    rcases herr with herr | herr <;> simp [processSinglePage, herr]
  · intro m hm1 hm2
    rw [show (processChunked engine pageMem total cs mem0 live0).1
        = (processChunkedAux engine pageMem total cs mem0 total 1 live0 []).1
      from rfl]
    rw [hres m hfuel, if_pos ⟨hm1, hm2⟩]

/-- Witness for C9 at a concrete job: page 1 of a two-page chunked job throws
after rendering; its stored text is the error placeholder and page 2 is still
present with its recognized text. -/
theorem processChunked_C9_witness :
    mapGet (processChunked engineLeak pageMemBig 2 1 0 0).1 1
      = some ⟨1, "[Error processing page " ++ toString 1 ++ ": " ++ "boom" ++ "]", 0⟩
    ∧ mapGet (processChunked engineLeak pageMemBig 2 1 0 0).1 2
        = some (processSinglePage engineLeak 2) :=
  ⟨(processChunked_C9 engineLeak pageMemBig 2 1 0 0 (by decide) 1 (by decide)
      (by decide) "boom" (Or.inl rfl)).1,
   (processChunked_C9 engineLeak pageMemBig 2 1 0 0 (by decide) 1 (by decide)
      (by decide) "boom" (Or.inl rfl)).2 2 (by decide) (by decide)⟩
